import Mathlib

/-!
Shallow embedding of the consecutive-integer grouping routine
(`find_consecutive_integers` from the notebook), together with proofs of the
specification's claims about it.

The source computes, for a sequence `idxs`:
  * `np.diff(idxs)` — pairwise differences `idxs[i+1] - idxs[i]`;
  * `boundaries = np.where(np.diff(idxs) != 1)[0] + 1`, then bracketed with
    `0` and `len(idxs)`;
  * then for each adjacent boundary pair, the candidate run
    `[boundaries[i], boundaries[i+1] - 1]`, emitted as a value pair shifted
    by `start_offset` whenever its length reaches `min_consec`.
-/

namespace RunGrouper

/-- Difference `np.diff(idxs)[i] = idxs[i+1] - idxs[i]` (meaningful for
`i < idxs.length - 1`; out-of-range reads default to `0`, which no reachable
computation performs — see `fci_index_accesses_in_bounds`). -/
def diff (idxs : List Int) (i : Nat) : Int :=
  idxs.getD (i + 1) 0 - idxs.getD i 0

/-- Break positions `np.where(np.diff(idxs) != 1)[0] + 1`: the positions `p`,
in increasing order, where `idxs[p] - idxs[p-1] ≠ 1`. -/
def breaks (idxs : List Int) : List Nat :=
  ((List.range (idxs.length - 1)).filter (fun i => decide (diff idxs i ≠ 1))).map (· + 1)

/-- Bracketing `np.concatenate(([0], boundaries, [len(idxs)]))`. -/
def boundaries (idxs : List Int) : List Nat :=
  0 :: (breaks idxs ++ [idxs.length])

/-- Body of the source's loop: given `start_idx` and `end_idx`, emit the
offset-shifted value pair when `end_idx - start_idx + 1 >= min_consec`. -/
def emit (idxs : List Int) (min_consec start_offset : Int) (start_idx end_idx : Nat) :
    Option (Int × Int) :=
  if (end_idx : Int) - (start_idx : Int) + 1 ≥ min_consec then
    some (idxs.getD start_idx 0 + start_offset, idxs.getD end_idx 0 + start_offset)
  else none

/-- The notebook's `find_consecutive_integers(idxs, min_consec, start_offset)`:
empty input short-circuits to `[]`; otherwise loop `i` over
`range(len(boundaries) - 1)` with `start_idx = boundaries[i]`,
`end_idx = boundaries[i+1] - 1`, appending qualifying groups. -/
def find_consecutive_integers (idxs : List Int) (min_consec : Int)
    (start_offset : Int := 0) : List (Int × Int) :=
  if idxs.length = 0 then []
  else
    (List.range ((boundaries idxs).length - 1)).filterMap (fun i =>
      emit idxs min_consec start_offset
        ((boundaries idxs).getD i 0)
        ((boundaries idxs).getD (i + 1) 0 - 1))

/-- The adjacent boundary pairs `(boundaries[i], boundaries[i+1])` the loop
ranges over, as a list. -/
def blockPairs (idxs : List Int) : List (Nat × Nat) :=
  (boundaries idxs).zip (boundaries idxs).tail

/-- The candidate runs as inclusive index spans
`[boundaries[i], boundaries[i+1] - 1]` (empty for empty input, mirroring the
source's short-circuit). -/
def runSpans (idxs : List Int) : List (Nat × Nat) :=
  if idxs.length = 0 then [] else (blockPairs idxs).map (fun p => (p.1, p.2 - 1))

/-- The candidate runs whose length passes the source's threshold test
`end_idx - start_idx + 1 >= min_consec`. -/
def qualSpans (idxs : List Int) (min_consec : Int) : List (Nat × Nat) :=
  (runSpans idxs).filter
    (fun p => decide ((p.2 : Int) - (p.1 : Int) + 1 ≥ min_consec))

/-- Modelled from the spec's data model: `[lo, hi]` is a maximal run when each
value inside is exactly one greater than its predecessor and the span extends
neither left nor right. Used to compare the code's output against the spec's
notion of "maximal consecutive run". -/
def IsMaximalRun (idxs : List Int) (lo hi : Nat) : Prop :=
  lo ≤ hi ∧ hi < idxs.length ∧
  (∀ j, lo ≤ j → j < hi → idxs.getD (j + 1) 0 = idxs.getD j 0 + 1) ∧
  (lo = 0 ∨ idxs.getD lo 0 ≠ idxs.getD (lo - 1) 0 + 1) ∧
  (hi + 1 = idxs.length ∨ idxs.getD (hi + 1) 0 ≠ idxs.getD hi 0 + 1)

/-- A loop reading `l.getD i` and `l.getD (i+1)` over `range (l.length - 1)`
enumerates exactly the adjacent pairs `l.zip l.tail`. -/
theorem range_filterMap_adjacent {β : Type} (F : Nat → Nat → Option β) :
    ∀ l : List Nat,
      (List.range (l.length - 1)).filterMap
          (fun i => F (l.getD i 0) (l.getD (i + 1) 0)) =
        (l.zip l.tail).filterMap (fun p => F p.1 p.2)
  | [] => rfl
  | [_] => rfl
  | a :: b :: t => by
    have ih := range_filterMap_adjacent F (b :: t)
    simp only [List.length_cons, Nat.add_sub_cancel] at ih ⊢
    rw [List.range_succ_eq_map, List.filterMap_cons, List.filterMap_map]
    simp only [List.tail_cons] at ih ⊢
    rw [List.zip_cons_cons, List.filterMap_cons]
    simp only [List.getD_cons_zero, List.getD_cons_succ, Function.comp_def,
      Nat.succ_eq_add_one] at ih ⊢
    rw [← ih]

/-- Membership in `breaks`: exactly the interior positions whose pairwise
difference is not `1`. -/
theorem mem_breaks {idxs : List Int} {p : Nat} :
    p ∈ breaks idxs ↔ 0 < p ∧ p < idxs.length ∧ diff idxs (p - 1) ≠ 1 := by
  unfold breaks
  simp only [List.mem_map, List.mem_filter, List.mem_range, decide_eq_true_eq]
  constructor
  · rintro ⟨i, ⟨hi, hd⟩, rfl⟩
    exact ⟨Nat.succ_pos i, by omega, by simpa using hd⟩
  · rintro ⟨h0, h1, hd⟩
    exact ⟨p - 1, ⟨by omega, by simpa using hd⟩, by omega⟩

theorem breaks_pairwise (idxs : List Int) : List.Pairwise (· < ·) (breaks idxs) :=
  (((List.pairwise_lt_range _).filter _).map _ (fun _ _ h => by omega))

theorem boundaries_pairwise {idxs : List Int} (h : idxs.length ≠ 0) :
    List.Pairwise (· < ·) (boundaries idxs) := by
  unfold boundaries
  rw [List.pairwise_cons]
  refine ⟨?_, ?_⟩
  · intro q hq
    rcases List.mem_append.1 hq with hq | hq
    · exact (mem_breaks.1 hq).1
    · simp only [List.mem_singleton] at hq
      omega
  · rw [List.pairwise_append]
    refine ⟨breaks_pairwise idxs, by simp, ?_⟩
    intro p hp q hq
    simp only [List.mem_singleton] at hq
    subst hq
    exact (mem_breaks.1 hp).2.1

theorem mem_boundaries_le {idxs : List Int} {q : Nat} (hq : q ∈ boundaries idxs) :
    q ≤ idxs.length := by
  unfold boundaries at hq
  rcases List.mem_cons.1 hq with hq | hq
  · omega
  rcases List.mem_append.1 hq with hq | hq
  · exact le_of_lt (mem_breaks.1 hq).2.1
  · simp only [List.mem_singleton] at hq
    omega

theorem boundaries_length (idxs : List Int) :
    (boundaries idxs).length = (breaks idxs).length + 2 := by
  simp [boundaries]

theorem blockPairs_length (idxs : List Int) :
    (blockPairs idxs).length = (boundaries idxs).length - 1 := by
  simp only [blockPairs, List.length_zip, List.length_tail]
  omega

theorem blockPairs_getElem (idxs : List Int) (i : Nat) (h : i < (blockPairs idxs).length) :
    (blockPairs idxs)[i] =
      ((boundaries idxs).getD i 0, (boundaries idxs).getD (i + 1) 0) := by
  have hl := blockPairs_length idxs
  have h1 : i < (boundaries idxs).length := by omega
  have h2 : i + 1 < (boundaries idxs).length := by
    have := boundaries_length idxs
    omega
  have h3 : i < (boundaries idxs).tail.length := by
    rw [List.length_tail]
    omega
  unfold blockPairs
  rw [List.getElem_zip, List.getElem_tail]
  rw [List.getD_eq_getElem _ _ h1, List.getD_eq_getElem _ _ h2]

theorem mem_blockPairs {idxs : List Int} {a b : Nat} (hab : (a, b) ∈ blockPairs idxs) :
    ∃ i, i + 1 < (boundaries idxs).length ∧
      (boundaries idxs).getD i 0 = a ∧ (boundaries idxs).getD (i + 1) 0 = b := by
  rcases List.mem_iff_getElem.1 hab with ⟨i, hi, heq⟩
  rw [blockPairs_getElem idxs i hi] at heq
  have hl := blockPairs_length idxs
  have hb := boundaries_length idxs
  refine ⟨i, by omega, ?_, ?_⟩
  · exact congrArg Prod.fst heq
  · exact congrArg Prod.snd heq

theorem boundaries_getD_lt {idxs : List Int} (h : idxs.length ≠ 0) {i j : Nat}
    (hij : i < j) (hj : j < (boundaries idxs).length) :
    (boundaries idxs).getD i 0 < (boundaries idxs).getD j 0 := by
  have hp := (List.pairwise_iff_getElem).1 (boundaries_pairwise h)
  have hi : i < (boundaries idxs).length := lt_trans hij hj
  rw [List.getD_eq_getElem _ _ hi, List.getD_eq_getElem _ _ hj]
  exact hp i j hi hj hij

theorem boundaries_getD_mem {idxs : List Int} {j : Nat}
    (hj : j < (boundaries idxs).length) :
    (boundaries idxs).getD j 0 ∈ boundaries idxs := by
  rw [List.getD_eq_getElem _ _ hj]
  exact List.getElem_mem hj

/-- The loop of the source, rewritten over the adjacent boundary pairs. -/
theorem fci_eq_blockPairs (idxs : List Int) (t k : Int) (h : idxs.length ≠ 0) :
    find_consecutive_integers idxs t k =
      (blockPairs idxs).filterMap (fun p => emit idxs t k p.1 (p.2 - 1)) := by
  unfold find_consecutive_integers
  rw [if_neg h]
  exact range_filterMap_adjacent (fun x y => emit idxs t k x (y - 1)) (boundaries idxs)

/-- Structure of one candidate block: its endpoints are boundary values, it is
nonempty, and all interior pairwise differences are `1`. -/
theorem block_spec {idxs : List Int} (h : idxs.length ≠ 0) {a b : Nat}
    (hab : (a, b) ∈ blockPairs idxs) :
    a < b ∧ b ≤ idxs.length ∧ (a = 0 ∨ a ∈ breaks idxs) ∧
      (b = idxs.length ∨ b ∈ breaks idxs) ∧
      ∀ j, a ≤ j → j + 1 < b → diff idxs j = 1 := by
  obtain ⟨i, hi, ha, hb⟩ := mem_blockPairs hab
  have hblen := boundaries_length idxs
  have hab' : a < b := by
    have := boundaries_getD_lt h (show i < i + 1 by omega) hi
    omega
  have hble : b ≤ idxs.length := by
    have := mem_boundaries_le (boundaries_getD_mem hi)
    omega
  refine ⟨hab', hble, ?_, ?_, ?_⟩
  · rcases Nat.eq_zero_or_pos i with hi0 | hi0
    · left
      subst hi0
      simpa [boundaries] using ha.symm
    · right
      obtain ⟨i', rfl⟩ := Nat.exists_eq_add_of_lt hi0
      have hmem : a ∈ breaks idxs ++ [idxs.length] := by
        have hi' : i' < (breaks idxs ++ [idxs.length]).length := by
          simp only [List.length_append, List.length_singleton]
          omega
        have : (boundaries idxs).getD (0 + i' + 1) 0 =
            (breaks idxs ++ [idxs.length]).getD i' 0 := by
          simp [boundaries]
        rw [this, List.getD_eq_getElem _ _ hi'] at ha
        rw [← ha]
        exact List.getElem_mem hi'
      rcases List.mem_append.1 hmem with hm | hm
      · exact hm
      · simp only [List.mem_singleton] at hm
        omega
  · have hmem : b ∈ breaks idxs ++ [idxs.length] := by
      have hi' : i < (breaks idxs ++ [idxs.length]).length := by
        simp only [List.length_append, List.length_singleton]
        omega
      have : (boundaries idxs).getD (i + 1) 0 =
          (breaks idxs ++ [idxs.length]).getD i 0 := by
        simp [boundaries]
      rw [this, List.getD_eq_getElem _ _ hi'] at hb
      rw [← hb]
      exact List.getElem_mem hi'
    rcases List.mem_append.1 hmem with hm | hm
    · exact Or.inr hm
    · simp only [List.mem_singleton] at hm
      exact Or.inl hm
  · intro j haj hjb
    by_contra hne
    have hjmem : j + 1 ∈ breaks idxs :=
      mem_breaks.2 ⟨Nat.succ_pos j, by omega, by simpa using hne⟩
    have hjbd : j + 1 ∈ boundaries idxs := by
      unfold boundaries
      exact List.mem_cons_of_mem _ (List.mem_append.2 (Or.inl hjmem))
    obtain ⟨m, hm, hmj⟩ := List.mem_iff_getElem.1 hjbd
    rw [← List.getD_eq_getElem _ 0 hm] at hmj
    rcases Nat.lt_or_ge m (i + 1) with hmi | hmi
    · rcases Nat.lt_or_ge m i with hmi' | hmi'
      · have := boundaries_getD_lt h hmi' (show i < (boundaries idxs).length by omega)
        omega
      · have : m = i := by omega
        subst this
        omega
    · rcases Nat.eq_or_lt_of_le hmi with hmi' | hmi'
      · subst hmi'
        omega
      · have := boundaries_getD_lt h hmi' hm
        omega

/-- Inside one candidate block the values ascend by exactly one. -/
theorem block_values {idxs : List Int} (h : idxs.length ≠ 0) {a b : Nat}
    (hab : (a, b) ∈ blockPairs idxs) :
    ∀ j, a ≤ j → j < b →
      idxs.getD j 0 = idxs.getD a 0 + ((j : Int) - (a : Int)) := by
  have hs := (block_spec h hab).2.2.2.2
  intro j haj
  induction j, haj using Nat.le_induction with
  | base => intro _; simp
  | succ n han ih =>
    intro hnb
    have hd := hs n han (by omega)
    unfold diff at hd
    have hv := ih (by omega)
    push_cast
    omega

theorem filterMap_if_eq_filter_map {α β : Type} (l : List α) (P : α → Prop)
    [DecidablePred P] (f : α → β) :
    (l.filterMap fun x => if P x then some (f x) else none) =
      (l.filter fun x => decide (P x)).map f := by
  induction l with
  | nil => rfl
  | cons a t ih =>
    rw [List.filterMap_cons, List.filter_cons]
    by_cases hP : P a
    · simp [hP, ih]
    · simp [hP, ih]

theorem filterMap_sublist_of_imp {α β : Type} (l : List α) (f g : α → Option β)
    (h : ∀ x y, f x = some y → g x = some y) :
    (l.filterMap f).Sublist (l.filterMap g) := by
  induction l with
  | nil => simp
  | cons a t ih =>
    rw [List.filterMap_cons, List.filterMap_cons]
    cases hfa : f a with
    | none =>
      cases g a with
      | none => exact ih
      | some y => exact ih.cons y
    | some y =>
      rw [h a y hfa]
      exact ih.cons₂ y

/-- Telescoping: summing `snd - fst` over adjacent pairs gives `last - head`. -/
theorem zip_tail_sum :
    ∀ (t : List Nat) (a : Nat),
      (((a :: t).zip t).map (fun p => ((p.2 : Int) - (p.1 : Int)))).sum =
        (((a :: t).getLast (List.cons_ne_nil a t) : Int) - (a : Int))
  | [], a => by simp
  | b :: t', a => by
    have ih := zip_tail_sum t' b
    rw [List.zip_cons_cons, List.map_cons, List.sum_cons, List.getLast_cons_cons, ih]
    ring

/-- Every position between the head and the last element of a list lies inside
one of its adjacent pairs. -/
theorem zip_tail_cover :
    ∀ (t : List Nat) (a j : Nat), a ≤ j →
      j < (a :: t).getLast (List.cons_ne_nil a t) →
      ∃ p ∈ (a :: t).zip t, p.1 ≤ j ∧ j < p.2
  | [], a, j, haj, hlt => by
    simp only [List.getLast_singleton] at hlt
    omega
  | b :: t', a, j, haj, hlt => by
    rw [List.getLast_cons_cons] at hlt
    by_cases hjb : j < b
    · exact ⟨(a, b), by simp [List.zip_cons_cons], haj, hjb⟩
    · obtain ⟨p, hp, h1, h2⟩ := zip_tail_cover t' b j (by omega) hlt
      exact ⟨p, by rw [List.zip_cons_cons]; exact List.mem_cons_of_mem _ hp, h1, h2⟩

theorem boundaries_getLast (idxs : List Int) :
    (boundaries idxs).getLast (by simp [boundaries]) = idxs.length := by
  unfold boundaries
  rw [List.getLast_cons (by simp), List.getLast_append' _ _ (by simp)]
  rfl

theorem mem_runSpans {idxs : List Int} {a e : Nat} (hae : (a, e) ∈ runSpans idxs) :
    idxs.length ≠ 0 ∧ ∃ b, (a, b) ∈ blockPairs idxs ∧ e = b - 1 := by
  unfold runSpans at hae
  by_cases h0 : idxs.length = 0
  · rw [if_pos h0] at hae
    simp at hae
  · rw [if_neg h0] at hae
    obtain ⟨⟨x, y⟩, hp, hpe⟩ := List.mem_map.1 hae
    simp only [Prod.mk.injEq] at hpe
    obtain ⟨rfl, rfl⟩ := hpe
    exact ⟨h0, y, hp, rfl⟩

theorem runSpans_spec {idxs : List Int} {p : Nat × Nat} (hp : p ∈ runSpans idxs) :
    p.1 ≤ p.2 ∧ p.2 < idxs.length := by
  obtain ⟨x, y⟩ := p
  obtain ⟨h0, b, hb, rfl⟩ := mem_runSpans hp
  obtain ⟨h1, h2, -, -, -⟩ := block_spec h0 hb
  constructor <;> simp <;> omega

theorem runSpans_values {idxs : List Int} {p : Nat × Nat} (hp : p ∈ runSpans idxs) :
    ∀ j, p.1 ≤ j → j ≤ p.2 →
      idxs.getD j 0 = idxs.getD p.1 0 + ((j : Int) - (p.1 : Int)) := by
  obtain ⟨x, y⟩ := p
  obtain ⟨h0, b, hb, rfl⟩ := mem_runSpans hp
  intro j hxj hjy
  have h1 := (block_spec h0 hb).1
  exact block_values h0 hb j hxj (by simp at hjy ⊢; omega)

theorem runSpans_pairwise (idxs : List Int) :
    List.Pairwise (fun p q : Nat × Nat => p.2 < q.1) (runSpans idxs) := by
  unfold runSpans
  by_cases h0 : idxs.length = 0
  · rw [if_pos h0]
    exact List.Pairwise.nil
  · rw [if_neg h0]
    have hbp : List.Pairwise (fun p q : Nat × Nat => p.2 - 1 < q.1) (blockPairs idxs) := by
      rw [List.pairwise_iff_getElem]
      intro i j hi hj hij
      rw [blockPairs_getElem idxs i hi, blockPairs_getElem idxs j hj]
      have hbl := blockPairs_length idxs
      have hbo := boundaries_length idxs
      have h1 : (boundaries idxs).getD (i + 1) 0 ≤ (boundaries idxs).getD j 0 := by
        rcases Nat.eq_or_lt_of_le (show i + 1 ≤ j by omega) with he | hlt
        · rw [he]
        · exact le_of_lt (boundaries_getD_lt h0 hlt (by omega))
      have h2 : (boundaries idxs).getD 0 0 < (boundaries idxs).getD (i + 1) 0 :=
        boundaries_getD_lt h0 (show 0 < i + 1 by omega) (by omega)
      have h3 : (boundaries idxs).getD 0 0 = 0 := rfl
      dsimp only
      omega
    exact List.Pairwise.map _ (fun p q hpq => hpq) hbp

theorem blockPairs_cover {idxs : List Int} {j : Nat} (hj : j < idxs.length) :
    ∃ p ∈ blockPairs idxs, p.1 ≤ j ∧ j < p.2 := by
  have hlt : j < (0 :: (breaks idxs ++ [idxs.length])).getLast
      (List.cons_ne_nil _ _) := by
    have hL : (0 :: (breaks idxs ++ [idxs.length])).getLast
        (List.cons_ne_nil _ _) = idxs.length := boundaries_getLast idxs
    omega
  exact zip_tail_cover (breaks idxs ++ [idxs.length]) 0 j (Nat.zero_le j) hlt

theorem runSpans_cover {idxs : List Int} {j : Nat} (hj : j < idxs.length) :
    ∃ p ∈ runSpans idxs, p.1 ≤ j ∧ j ≤ p.2 := by
  have h0 : idxs.length ≠ 0 := by omega
  obtain ⟨p, hp, h1, h2⟩ := blockPairs_cover hj
  refine ⟨(p.1, p.2 - 1), ?_, h1, by omega⟩
  unfold runSpans
  rw [if_neg h0]
  exact List.mem_map.2 ⟨p, hp, rfl⟩

theorem runSpans_sum (idxs : List Int) :
    ((runSpans idxs).map (fun p => ((p.2 : Int) - (p.1 : Int) + 1))).sum =
      (idxs.length : Int) := by
  unfold runSpans
  by_cases h0 : idxs.length = 0
  · rw [if_pos h0, h0]
    rfl
  · rw [if_neg h0, List.map_map]
    have hcongr : ∀ p ∈ blockPairs idxs,
        ((fun q : Nat × Nat => ((q.2 : Int) - (q.1 : Int) + 1)) ∘
          (fun q : Nat × Nat => (q.1, q.2 - 1))) p =
          (fun q : Nat × Nat => ((q.2 : Int) - (q.1 : Int))) p := by
      intro p hp
      obtain ⟨x, y⟩ := p
      have h1 := (block_spec h0 hp).1
      simp only [Function.comp_apply]
      omega
    rw [List.map_congr_left hcongr]
    have hzip : (blockPairs idxs).map (fun q : Nat × Nat => ((q.2 : Int) - (q.1 : Int))) =
        ((0 :: (breaks idxs ++ [idxs.length])).zip (breaks idxs ++ [idxs.length])).map
          (fun q : Nat × Nat => ((q.2 : Int) - (q.1 : Int))) := rfl
    rw [hzip, zip_tail_sum]
    have hL : (0 :: (breaks idxs ++ [idxs.length])).getLast
        (List.cons_ne_nil _ _) = idxs.length := boundaries_getLast idxs
    rw [hL]
    ring

/-- The function's output is exactly the qualifying spans, mapped to
offset-shifted value pairs. -/
theorem fci_eq_qualSpans_map (idxs : List Int) (t k : Int) :
    find_consecutive_integers idxs t k =
      (qualSpans idxs t).map (fun p => (idxs.getD p.1 0 + k, idxs.getD p.2 0 + k)) := by
  by_cases h0 : idxs.length = 0
  · unfold find_consecutive_integers qualSpans runSpans
    rw [if_pos h0, if_pos h0]
    rfl
  · rw [fci_eq_blockPairs idxs t k h0]
    unfold qualSpans runSpans
    rw [if_neg h0, List.filter_map, List.map_map]
    have hemit : (fun p : Nat × Nat => emit idxs t k p.1 (p.2 - 1)) =
        fun p : Nat × Nat =>
          if ((p.2 - 1 : Nat) : Int) - (p.1 : Int) + 1 ≥ t then
            some (idxs.getD p.1 0 + k, idxs.getD (p.2 - 1) 0 + k)
          else none := rfl
    rw [hemit, filterMap_if_eq_filter_map]
    rfl

/-- Every candidate run span is a maximal consecutive run in the spec's sense. -/
theorem runSpans_maximal {idxs : List Int} {p : Nat × Nat} (hp : p ∈ runSpans idxs) :
    IsMaximalRun idxs p.1 p.2 := by
  obtain ⟨x, y⟩ := p
  obtain ⟨h0, b, hb, rfl⟩ := mem_runSpans hp
  obtain ⟨h1, h2, h3, h4, h5⟩ := block_spec h0 hb
  dsimp only
  refine ⟨by omega, by omega, ?_, ?_, ?_⟩
  · intro j hxj hjb
    have hd := h5 j hxj (by omega)
    unfold diff at hd
    omega
  · rcases h3 with h3 | h3
    · exact Or.inl h3
    · right
      have hm := mem_breaks.1 h3
      unfold diff at hm
      have hx1 : x - 1 + 1 = x := by omega
      rw [hx1] at hm
      omega
  · rcases h4 with h4 | h4
    · left
      omega
    · right
      have hm := mem_breaks.1 h4
      unfold diff at hm
      have hb1 : b - 1 + 1 = b := by omega
      rw [hb1] at hm ⊢
      omega

/-- C1: for every non-decreasing integer sequence `S`,
`find_consecutive_integers S 1 0` returns exactly the value pairs of the
candidate run spans; those spans are maximal consecutive runs, cover every
position of `S`, and are pairwise disjoint (an exact partition); and the sum
of the lengths of all returned runs equals `S.length`. -/
theorem fci_partitions_into_maximal_runs (S : List Int) (hs : S.Sorted (· ≤ ·)) :
    find_consecutive_integers S 1 0 =
        (runSpans S).map (fun p => (S.getD p.1 0, S.getD p.2 0)) ∧
      (∀ p ∈ runSpans S, IsMaximalRun S p.1 p.2) ∧
      (∀ j < S.length, ∃ p ∈ runSpans S, p.1 ≤ j ∧ j ≤ p.2) ∧
      List.Pairwise (fun p q : Nat × Nat => p.2 < q.1) (runSpans S) ∧
      ((find_consecutive_integers S 1 0).map (fun q => q.2 - q.1 + 1)).sum =
        (S.length : Int) := by
  have hqual : qualSpans S 1 = runSpans S := by
    unfold qualSpans
    rw [List.filter_eq_self]
    intro p hp
    have h1 := (runSpans_spec hp).1
    simp only [decide_eq_true_eq]
    omega
  have ha : find_consecutive_integers S 1 0 =
      (runSpans S).map (fun p => (S.getD p.1 0, S.getD p.2 0)) := by
    rw [fci_eq_qualSpans_map S 1 0, hqual]
    apply List.map_congr_left
    intro p hp
    simp
  refine ⟨ha, fun p hp => runSpans_maximal hp, fun j hj => runSpans_cover hj,
    runSpans_pairwise S, ?_⟩
  rw [ha, List.map_map]
  have hc : ∀ p ∈ runSpans S,
      ((fun q : Int × Int => q.2 - q.1 + 1) ∘
        (fun p : Nat × Nat => (S.getD p.1 0, S.getD p.2 0))) p =
        (fun p : Nat × Nat => ((p.2 : Int) - (p.1 : Int) + 1)) p := by
    intro p hp
    obtain ⟨hle, hlt⟩ := runSpans_spec hp
    have hv := runSpans_values hp p.2 hle le_rfl
    simp only [Function.comp_apply]
    omega
  rw [List.map_congr_left hc, runSpans_sum]

/-- Witness for C1, at `S = [5, 6, 8]`. -/
theorem fci_partitions_into_maximal_runs_w :
    ((find_consecutive_integers [5, 6, 8] 1 0).map (fun q => q.2 - q.1 + 1)).sum =
      (([5, 6, 8] : List Int).length : Int) :=
  (fci_partitions_into_maximal_runs [5, 6, 8] (by decide)).2.2.2.2

/-- C2: the notebook's concrete scenarios on
`[3,4,5,6,9,10,15,16,17,18,19,25,30,31,32,40,42,44,50,51,52,53]` for
thresholds 3, 4, 5 and 10, and the single-element input `[7]` with
threshold 1. -/
theorem fci_concrete_scenarios :
    find_consecutive_integers
        [3, 4, 5, 6, 9, 10, 15, 16, 17, 18, 19, 25, 30, 31, 32, 40, 42, 44, 50, 51, 52, 53]
        3 0 = [(3, 6), (15, 19), (30, 32), (50, 53)] ∧
      find_consecutive_integers
        [3, 4, 5, 6, 9, 10, 15, 16, 17, 18, 19, 25, 30, 31, 32, 40, 42, 44, 50, 51, 52, 53]
        4 0 = [(3, 6), (15, 19), (50, 53)] ∧
      find_consecutive_integers
        [3, 4, 5, 6, 9, 10, 15, 16, 17, 18, 19, 25, 30, 31, 32, 40, 42, 44, 50, 51, 52, 53]
        5 0 = [(15, 19)] ∧
      find_consecutive_integers
        [3, 4, 5, 6, 9, 10, 15, 16, 17, 18, 19, 25, 30, 31, 32, 40, 42, 44, 50, 51, 52, 53]
        10 0 = [] ∧
      find_consecutive_integers [7] 1 0 = [(7, 7)] := by
  refine ⟨?_, ?_, ?_, ?_, ?_⟩ <;> decide

/-- C3: a repeated adjacent value is always a break position (a run step
requires `idxs[i+1] = idxs[i] + 1`), and in particular
`find_consecutive_integers [1,2,2,3] 2 0 = [(1,2), (2,3)]`. -/
theorem fci_duplicate_breaks_run :
    (∀ (idxs : List Int) (i : Nat), i + 1 < idxs.length →
        idxs.getD (i + 1) 0 = idxs.getD i 0 → i + 1 ∈ breaks idxs) ∧
      find_consecutive_integers [1, 2, 2, 3] 2 0 = [(1, 2), (2, 3)] := by
  constructor
  · intro idxs i h1 h2
    rw [mem_breaks]
    refine ⟨by omega, h1, ?_⟩
    unfold diff
    simp only [Nat.add_sub_cancel]
    omega
  · decide

/-- C4: raising the threshold from `t` to `t' > t` yields a sublist
(subsequence) of the lower-threshold result: no new pairs, order kept,
endpoints unchanged. -/
theorem fci_threshold_monotone (S : List Int) (k t t' : Int) (h : t < t') :
    (find_consecutive_integers S t' k).Sublist (find_consecutive_integers S t k) := by
  by_cases h0 : S.length = 0
  · unfold find_consecutive_integers
    rw [if_pos h0, if_pos h0]
  · rw [fci_eq_blockPairs S t' k h0, fci_eq_blockPairs S t k h0]
    apply filterMap_sublist_of_imp
    intro p y he
    unfold emit at he ⊢
    by_cases hc : ((p.2 - 1 : Nat) : Int) - (p.1 : Int) + 1 ≥ t'
    · rw [if_pos hc] at he
      rw [if_pos (show ((p.2 - 1 : Nat) : Int) - (p.1 : Int) + 1 ≥ t by omega)]
      exact he
    · rw [if_neg hc] at he
      exact absurd he (by simp)

/-- Witness for C4, at `S = [1, 2]`, `t = 1`, `t' = 2`. -/
theorem fci_threshold_monotone_w :
    (find_consecutive_integers [1, 2] 2 0).Sublist (find_consecutive_integers [1, 2] 1 0) :=
  fci_threshold_monotone [1, 2] 0 1 2 (by decide)

/-- C5: offset linearity — the result with offset `k` is the offset-0 result
with `k` added to both ends of every pair, for every integer `k` (negative
and zero included). -/
theorem fci_offset_linear (S : List Int) (t k : Int) :
    find_consecutive_integers S t k =
      (find_consecutive_integers S t 0).map (fun p => (p.1 + k, p.2 + k)) := by
  rw [fci_eq_qualSpans_map S t k, fci_eq_qualSpans_map S t 0, List.map_map]
  apply List.map_congr_left
  intro p hp
  simp

/-- C6: the output is the left-to-right image of the qualifying run spans
(runs failing the threshold are dropped entirely, never merged); the
qualifying spans are a sublist of all candidate spans, their index spans are
pairwise disjoint, and each lies within the input's positions. -/
theorem fci_ordered_disjoint_drops (S : List Int) (t k : Int) :
    find_consecutive_integers S t k =
        (qualSpans S t).map (fun p => (S.getD p.1 0 + k, S.getD p.2 0 + k)) ∧
      (qualSpans S t).Sublist (runSpans S) ∧
      List.Pairwise (fun p q : Nat × Nat => p.2 < q.1) (qualSpans S t) ∧
      ∀ p ∈ qualSpans S t, p.1 ≤ p.2 ∧ p.2 < S.length := by
  refine ⟨fci_eq_qualSpans_map S t k, List.filter_sublist _, ?_, ?_⟩
  · exact List.Pairwise.filter _ (runSpans_pairwise S)
  · intro p hp
    exact runSpans_spec (List.mem_of_mem_filter hp)

/-- C7: on a non-decreasing input, every returned pair satisfies
`start ≤ end`. -/
theorem fci_start_le_end (S : List Int) (t k : Int) (hs : S.Sorted (· ≤ ·)) :
    ∀ p ∈ find_consecutive_integers S t k, p.1 ≤ p.2 := by
  intro p hp
  rw [fci_eq_qualSpans_map S t k] at hp
  obtain ⟨q, hq, rfl⟩ := List.mem_map.1 hp
  have hq' : q ∈ runSpans S := List.mem_of_mem_filter hq
  obtain ⟨hle, hlt⟩ := runSpans_spec hq'
  have hv := runSpans_values hq' q.2 hle le_rfl
  dsimp only
  omega

/-- Witness for C7, at `S = [1, 2]`, whose single returned pair is `(1, 2)`. -/
theorem fci_start_le_end_w : ((1 : Int), (2 : Int)).1 ≤ ((1 : Int), (2 : Int)).2 :=
  fci_start_le_end [1, 2] 1 0 (by decide) (1, 2) (by decide)

/-- C8: the empty input returns `[]`, and when every candidate run's length is
below the threshold the result is likewise `[]` — in both cases a value, not
an error. -/
theorem fci_empty_and_no_qualifying_run (t k : Int) (S : List Int)
    (h : ∀ p ∈ runSpans S, (p.2 : Int) - (p.1 : Int) + 1 < t) :
    find_consecutive_integers [] t k = [] ∧ find_consecutive_integers S t k = [] := by
  refine ⟨rfl, ?_⟩
  rw [fci_eq_qualSpans_map S t k]
  have hq : qualSpans S t = [] := by
    unfold qualSpans
    rw [List.filter_eq_nil_iff]
    intro p hp
    have := h p hp
    simp only [decide_eq_true_eq]
    omega
  rw [hq]
  rfl

/-- Witness for C8, at `t = 5`, `S = [1, 2]` (longest run has length 2). -/
theorem fci_empty_and_no_qualifying_run_w :
    find_consecutive_integers [] 5 0 = [] ∧ find_consecutive_integers [1, 2] 5 0 = [] :=
  fci_empty_and_no_qualifying_run 5 0 [1, 2] (by decide)

/-- C9: on nonempty input, every index the computation reads is in bounds:
the `diff` reads at `i` and `i+1` over `range (length - 1)`, the boundary
reads at `i` and `i+1` over `range (boundaries.length - 1)`, and the element
reads at `start_idx = boundaries[i]` and `end_idx = boundaries[i+1] - 1`. -/
theorem fci_index_accesses_in_bounds (S : List Int) (t k : Int) (h : S.length ≠ 0) :
    (∀ i ∈ List.range (S.length - 1), i < S.length ∧ i + 1 < S.length) ∧
      ∀ i ∈ List.range ((boundaries S).length - 1),
        i < (boundaries S).length ∧ i + 1 < (boundaries S).length ∧
          (boundaries S).getD i 0 < S.length ∧
          (boundaries S).getD (i + 1) 0 - 1 < S.length := by
  constructor
  · intro i hi
    rw [List.mem_range] at hi
    omega
  · intro i hi
    rw [List.mem_range] at hi
    have hbo := boundaries_length S
    have h1 := boundaries_getD_lt h (show i < i + 1 by omega)
      (show i + 1 < (boundaries S).length by omega)
    have h2 := mem_boundaries_le
      (boundaries_getD_mem (show i + 1 < (boundaries S).length by omega))
    have h3 := boundaries_getD_lt h (show 0 < i + 1 by omega)
      (show i + 1 < (boundaries S).length by omega)
    have h4 : (boundaries S).getD 0 0 = 0 := rfl
    exact ⟨by omega, by omega, by omega, by omega⟩

/-- Witness for C9, at `S = [5]`, loop index `i = 0`. -/
theorem fci_index_accesses_in_bounds_w :
    0 < (boundaries [(5 : Int)]).length ∧ 0 + 1 < (boundaries [(5 : Int)]).length ∧
      (boundaries [(5 : Int)]).getD 0 0 < ([(5 : Int)] : List Int).length ∧
      (boundaries [(5 : Int)]).getD (0 + 1) 0 - 1 < ([(5 : Int)] : List Int).length :=
  (fci_index_accesses_in_bounds [5] 3 0 (by decide)).2 0 (by decide)

/-- C10: any threshold `t ≤ 1` (zero and negative included) behaves exactly
as threshold `1`, because every candidate run has length at least 1. -/
theorem fci_low_threshold_as_one (S : List Int) (k t : Int) (h : t ≤ 1) :
    find_consecutive_integers S t k = find_consecutive_integers S 1 k := by
  rw [fci_eq_qualSpans_map S t k, fci_eq_qualSpans_map S 1 k]
  have hq : qualSpans S t = qualSpans S 1 := by
    unfold qualSpans
    apply List.filter_congr
    intro p hp
    have h1 := (runSpans_spec hp).1
    have hge1 : (p.2 : Int) - (p.1 : Int) + 1 ≥ 1 := by omega
    have hget : (p.2 : Int) - (p.1 : Int) + 1 ≥ t := by omega
    simp [hge1, hget]
  rw [hq]

/-- Witness for C10, at `S = [3, 5]`, `t = 0`, offset `2`. -/
theorem fci_low_threshold_as_one_w :
    find_consecutive_integers [3, 5] 0 2 = find_consecutive_integers [3, 5] 1 2 :=
  fci_low_threshold_as_one [3, 5] 2 0 (by decide)

end RunGrouper
